import Mathlib

/-!
# Verification of the `jamtwopoolps` two-pool compartmental model program

Shallow embedding of `src/bin/jamtwopoolps.rs`: a two-pool Michaelis–Menten
compartmental model whose ODE right-hand side, initial condition and
observation function are handed to an external integrator, followed by a
reshaping step that turns the integrator's prediction records into a CSV
table.

Numbers are modelled exactly: the Rust `f64` values become `ℚ` (or, for the
calculus statement about trajectories, `ℝ`); the model closures are
parametric over a field so that the same definition serves both.  The
external integrator (`pharmsol`) is not part of this repository: pipeline
definitions take the prediction list it would produce as an input, and the
whole-program function takes the integrator itself as an argument.
-/

namespace JamTwoPool

/-- A prediction record as consumed by the reshaping step: the triple
`(p.time(), p.outeq(), p.prediction())` extracted on lines 105-108 of the
source. -/
structure Pred where
  time : ℚ
  outeq : ℕ
  prediction : ℚ
deriving DecidableEq

section Model

variable {K : Type} [Field K]

/-- The ODE rate-law closure of `equation::ODE::new` (source lines 44-65).
State `x = (QA, QB, QT)`, parameters
`p = (sa, sb, vab, vba, vbo, kab, kba, kbo)` in the order fetched by
`fetch_params!`, and `rateiv0` the infusion rate `rateiv[0]`.  Returns the
derivative vector `dx`. -/
def dxClosure (x : Fin 3 → K) (p : Fin 8 → K) (rateiv0 : K) : Fin 3 → K :=
  let sa := p 0
  let sb := p 1
  let vab := p 2
  let vba := p 3
  let vbo := p 4
  let kab := p 5
  let kba := p 6
  let kbo := p 7
  let qa := x 0
  let qb := x 1
  let con_a := qa / sa
  let con_b := qb / sb
  let fab := vab / (1 + kab / con_a)
  let fba := vba / (1 + kba / con_b)
  let fbo := vbo / (1 + kbo / con_b)
  ![rateiv0 + fba - fab, fab - fba - fbo, rateiv0 - fbo]

/-- The initial-condition closure (source lines 69-73): writes
`x = (6.0, 9.0, 15.0)`, ignoring the parameter vector, the time and the
covariates. -/
def initClosure {Cov : Type} (_p : Fin 8 → K) (_t : K) (_cov : Cov) : Fin 3 → K :=
  ![6, 9, 15]

/-- The observation closure (source lines 75-79): `y[i] = x[i]` for
`i = 0, 1, 2`. -/
def obsClosure {Cov : Type} (x : Fin 3 → K) (_p : Fin 8 → K) (_t : K) (_cov : Cov) :
    Fin 3 → K :=
  ![x 0, x 1, x 2]

/-- The closed-form rate law exactly as spec §4.1 writes it (refinement
target, transcribed from the spec text, not from the code):
`con_A = QA/SA`, `con_B = QB/SB`, `F_AB = VAB/(1 + KAB/con_A)`,
`F_BA = VBA/(1 + KBA/con_B)`, `F_BO = VBO/(1 + KBO/con_B)`,
`dQA/dt = r + F_BA - F_AB`, `dQB/dt = F_AB - F_BA - F_BO`,
`dQT/dt = r - F_BO`. -/
def specRateLaw (QA QB SA SB VAB VBA VBO KAB KBA KBO r : K) : Fin 3 → K :=
  let con_A := QA / SA
  let con_B := QB / SB
  let F_AB := VAB / (1 + KAB / con_A)
  let F_BA := VBA / (1 + KBA / con_B)
  let F_BO := VBO / (1 + KBO / con_B)
  ![r + F_BA - F_AB, F_AB - F_BA - F_BO, r - F_BO]

end Model

/-! ## Reshaping and CSV serialization (source lines 93-152)

The integrator's output is the prediction list; every definition below is a
pure function of that list.  The one place the source consults the
`HashMap` `groups` is `groups.keys().max()` (line 122); since a hash map's
key iteration order is unspecified, the key list is passed explicitly and
claim C9 shows the result does not depend on its order. -/

/-- The comparator of `all_preds.sort_by` (source lines 111-115): by time
(`partial_cmp`, which on the rationals is the total order), ties broken by
`outeq`.  Stated as the "less-or-equal" relation the sort establishes. -/
def predLE (a b : Pred) : Prop :=
  a.time < b.time ∨ (a.time = b.time ∧ a.outeq ≤ b.outeq)

instance : DecidableRel predLE := fun a b => by
  unfold predLE; infer_instance

instance : IsTotal Pred predLE := by
  constructor
  intro a b
  unfold predLE
  rcases lt_trichotomy a.time b.time with h | h | h
  · exact Or.inl (Or.inl h)
  · rcases Nat.le_total a.outeq b.outeq with ho | ho
    · exact Or.inl (Or.inr ⟨h, ho⟩)
    · exact Or.inr (Or.inr ⟨h.symm, ho⟩)
  · exact Or.inr (Or.inl h)

instance : IsTrans Pred predLE := by
  constructor
  intro a b c hab hbc
  unfold predLE at *
  rcases hab with hab | ⟨hab, hab'⟩
  · rcases hbc with hbc | ⟨hbc, _⟩
    · exact Or.inl (hab.trans hbc)
    · exact Or.inl (hbc ▸ hab)
  · rcases hbc with hbc | ⟨hbc, hbc'⟩
    · exact Or.inl (hab ▸ hbc)
    · exact Or.inr ⟨hab.trans hbc, hab'.trans hbc'⟩

/-- `all_preds` after `sort_by` (source lines 105-115).  `Vec::sort_by` is a
stable sort; insertion sort is the canonical stable sort, so the result is
the same list. -/
def sortedPreds (preds : List Pred) : List Pred :=
  List.insertionSort predLE preds

/-- `Vec::dedup` on the time list (source line 119): removes *consecutive*
equal entries only.  (Rust keeps the first element of each run; since the
kept and dropped values are equal, keeping the last — as the recursion
below does — yields the identical list.) -/
def dedupTimes : List ℚ → List ℚ
  | [] => []
  | [t] => [t]
  | t₁ :: t₂ :: ts =>
    if t₁ = t₂ then dedupTimes (t₂ :: ts) else t₁ :: dedupTimes (t₂ :: ts)

/-- The `times` vector (source lines 118-119): the time of every sorted
record, consecutive duplicates removed. -/
def timesOf (preds : List Pred) : List ℚ :=
  dedupTimes ((sortedPreds preds).map Pred.time)

/-- The key set of the `groups` hash map (source lines 93-101): one key per
distinct `outeq` occurring in the predictions, in first-occurrence order
(claim C9 shows any other order gives the same CSV). -/
def keysOf (preds : List Pred) : List ℕ :=
  (preds.map Pred.outeq).dedup

/-- `num_outeqs` (source line 122): `groups.keys().max().map_or(0, |&m| m + 1)`. -/
def numOuteqs (ks : List ℕ) : ℕ :=
  match ks.max? with
  | none => 0
  | some m => m + 1

/-- Decimal digits of `n`, most significant first, by fuel-structural
recursion (adequate fuel is supplied by the callers below). -/
def natDigitsAux : ℕ → ℕ → List ℕ
  | 0, _ => []
  | fuel + 1, n => if n = 0 then [] else natDigitsAux fuel (n / 10) ++ [n % 10]

/-- Decimal digits of `n`, most significant first; `[0]` for `0`. -/
def natDigitsMSF (n : ℕ) : List ℕ :=
  if n = 0 then [0] else natDigitsAux (n + 1) n

/-- Exactly `d` decimal digits of `n`, zero-padded, most significant first. -/
def natDigitsFixed (d n : ℕ) : List ℕ :=
  (List.range d).map fun i => n / 10 ^ (d - 1 - i) % 10

/-- Renders a digit list as a string of the characters `0`-`9`. -/
def digitsStr (l : List ℕ) : String :=
  String.mk (l.map fun k => Char.ofNat (48 + k % 10))

/-- Modelled from the Rust standard formatter `format!("{:.*}", d, q)`
(source lines 132 and 143): fixed-point rendering with exactly `d`
fractional digits — optional sign, integer digits, `'.'`, then `d`
zero-padded fractional digits.  Rounding is to the nearest multiple of
`10⁻ᵈ` (half-up here; the claims verified below do not depend on how ties
round). -/
def fmtFixed (d : ℕ) (q : ℚ) : String :=
  let n : ℤ := ⌊q * 10 ^ d + 1 / 2⌋
  let m : ℕ := n.natAbs
  (if n < 0 then "-" else "") ++ digitsStr (natDigitsMSF (m / 10 ^ d)) ++ "." ++
    digitsStr (natDigitsFixed d (m % 10 ^ d))

/-- `preds_at_time` (source lines 135-138): the sorted records whose time
lies within `1e-10` of the row time. -/
def predsAtTime (preds : List Pred) (t : ℚ) : List Pred :=
  (sortedPreds preds).filter fun p => decide (|p.time - t| < 1 / 10 ^ 10)

/-- One cell of a data row (source lines 141-147): `",{:.6}"` for the first
record at this row's time with the wanted `outeq`, a bare `","` when none
exists. -/
def cellFor (pats : List Pred) (o : ℕ) : String :=
  match pats.find? fun p => p.outeq == o with
  | some p => "," ++ fmtFixed 6 p.prediction
  | none => ","

/-- One data row (source lines 131-148): the time as `"{:.4}"`, then one
cell per output equation `0 .. num_outeqs - 1`, then a newline. -/
def dataRow (preds : List Pred) (n : ℕ) (t : ℚ) : String :=
  fmtFixed 4 t ++ String.join ((List.range n).map (cellFor (predsAtTime preds t))) ++ "\n"

/-- The literal header (source line 128), without its trailing newline. -/
def headerRow : String :=
  "Time,QA,QB,QT"

/-- `csv_content` (source lines 125-149): header line, then one data row
per entry of `times`. -/
def csvContent (preds : List Pred) (ks : List ℕ) : String :=
  headerRow ++ "\n" ++ String.join ((timesOf preds).map (dataRow preds (numOuteqs ks)))

/-- The hard-coded parameter vector (source line 36). -/
def mainParams : List ℚ :=
  [20, 25, 18, 13, 8, 32 / 100, 36 / 100, 31 / 100]

/-- The whole run after model construction: `main` passes the parameter
vector straight to `ode.estimate_predictions` (source lines 86-87) — there
is no validation step in between — and reshapes whatever the integrator
returns into the CSV text.  The external integrator is an argument. -/
def mainPipeline (integrate : List ℚ → List Pred) (params : List ℚ) : String :=
  csvContent (integrate params) (keysOf (integrate params))

/-- Number of comma-separated columns of a CSV line. -/
def columnsOf (s : String) : ℕ :=
  (s.data.splitOn ',').length

/-- `s` consists of a dot-free portion, a single `'.'`, and exactly `d`
trailing digit characters: what "formatted with exactly `d` fractional
digits" means for a decimal string. -/
def hasFracDigits (s : String) (d : ℕ) : Prop :=
  ∃ a b : String, s = a ++ "." ++ b ∧ b.length = d ∧
    (∀ c ∈ b.data, c.isDigit) ∧ (∀ c ∈ a.data, c ≠ '.')

/-! ## Supporting lemmas -/

theorem max?_perm {l₁ l₂ : List ℕ} (h : l₁.Perm l₂) : l₁.max? = l₂.max? := by
  induction h with
  | nil => rfl
  | cons x _ ih => rw [List.max?_cons, List.max?_cons, ih]
  | swap x y l =>
    rw [List.max?_cons, List.max?_cons, List.max?_cons, List.max?_cons]
    cases l.max? <;> simp [max_comm, max_left_comm]
  | trans _ _ ih₁ ih₂ => rw [ih₁, ih₂]

theorem numOuteqs_perm {ks₁ ks₂ : List ℕ} (h : ks₁.Perm ks₂) :
    numOuteqs ks₁ = numOuteqs ks₂ := by
  unfold numOuteqs
  rw [max?_perm h]

theorem mem_dedupTimes : ∀ (l : List ℚ) (a : ℚ), a ∈ dedupTimes l ↔ a ∈ l
  | [], _ => Iff.rfl
  | [_], _ => Iff.rfl
  | t₁ :: t₂ :: ts, a => by
    by_cases h : t₁ = t₂
    · simp only [dedupTimes, if_pos h, mem_dedupTimes (t₂ :: ts) a]
      subst h
      simp only [List.mem_cons]
      tauto
    · simp only [dedupTimes, if_neg h, List.mem_cons, mem_dedupTimes (t₂ :: ts) a]

theorem dedupTimes_sorted : ∀ l : List ℚ, l.Sorted (· ≤ ·) → (dedupTimes l).Sorted (· < ·)
  | [], _ => by simp [dedupTimes]
  | [_], _ => by simp [dedupTimes]
  | t₁ :: t₂ :: ts, h => by
    have h₂ : (t₂ :: ts).Sorted (· ≤ ·) := h.of_cons
    by_cases h12 : t₁ = t₂
    · simpa only [dedupTimes, if_pos h12] using dedupTimes_sorted (t₂ :: ts) h₂
    · have hlt : t₁ < t₂ :=
        lt_of_le_of_ne ((List.sorted_cons.mp h).1 t₂ (by simp)) h12
      simp only [dedupTimes, if_neg h12]
      rw [List.sorted_cons]
      refine ⟨?_, dedupTimes_sorted (t₂ :: ts) h₂⟩
      intro b hb
      rw [mem_dedupTimes] at hb
      rcases List.mem_cons.mp hb with rfl | hb
      · exact hlt
      · exact hlt.trans_le ((List.sorted_cons.mp h₂).1 b hb)

theorem timesOf_sorted (preds : List Pred) : (timesOf preds).Sorted (· < ·) := by
  have hs : (sortedPreds preds).Sorted predLE := List.sorted_insertionSort predLE preds
  have hmap : ((sortedPreds preds).map Pred.time).Sorted (· ≤ ·) := by
    refine List.Pairwise.map Pred.time ?_ hs
    intro a b hab
    rcases hab with h | ⟨h, _⟩
    · exact le_of_lt h
    · exact le_of_eq h
  exact dedupTimes_sorted _ hmap

theorem mem_timesOf (preds : List Pred) (t : ℚ) :
    t ∈ timesOf preds ↔ ∃ p ∈ preds, p.time = t := by
  unfold timesOf
  rw [mem_dedupTimes, List.mem_map]
  constructor
  · rintro ⟨p, hp, rfl⟩
    exact ⟨p, (List.perm_insertionSort predLE preds).mem_iff.mp hp, rfl⟩
  · rintro ⟨p, hp, rfl⟩
    exact ⟨p, (List.perm_insertionSort predLE preds).mem_iff.mpr hp, rfl⟩

theorem mem_predsAtTime (preds : List Pred) (t : ℚ) (p : Pred) :
    p ∈ predsAtTime preds t ↔ p ∈ preds ∧ |p.time - t| < 1 / 10 ^ 10 := by
  unfold predsAtTime sortedPreds
  rw [List.mem_filter, decide_eq_true_eq,
    (List.perm_insertionSort predLE preds).mem_iff]

/-- **C4 (corrected).** What the reshaping step actually does to the time
axis.  `Vec::dedup` (line 119) removes only *exactly equal* consecutive
times, so the row list is the strictly increasing list of the distinct
exact time values, one row per distinct exact time; the `1e-10` tolerance
enters only afterwards, when the per-row filter (lines 135-138) selects
which records populate a row. -/
theorem claim_C4_dedup_is_exact (preds : List Pred) :
    (timesOf preds).Sorted (· < ·) ∧
      (∀ t, t ∈ timesOf preds ↔ ∃ p ∈ preds, p.time = t) ∧
      ∀ t p, p ∈ predsAtTime preds t ↔ p ∈ preds ∧ |p.time - t| < 1 / 10 ^ 10 :=
  ⟨timesOf_sorted preds, fun t => mem_timesOf preds t,
    fun t p => mem_predsAtTime preds t p⟩

/-- **C4 (counterexample).** Two records whose times differ by `1e-12` —
within the claimed `1e-10` merging tolerance — on different channels are
*not* merged into one output row: the reshaped table has two rows, because
line 119 deduplicates by exact equality, not by tolerance. -/
theorem claim_C4_counterexample :
    |((1 : ℚ) + 1 / 10 ^ 12) - 1| < 1 / 10 ^ 10 ∧
      (timesOf [⟨1, 0, 5⟩, ⟨1 + 1 / 10 ^ 12, 1, 7⟩]).length = 2 ∧
      ¬(timesOf [⟨1, 0, 5⟩, ⟨1 + 1 / 10 ^ 12, 1, 7⟩]).length = 1 := by
  have habs : |((1 : ℚ) + 1 / 10 ^ 12) - 1| < 1 / 10 ^ 10 := by
    rw [show ((1 : ℚ) + 1 / 10 ^ 12) - 1 = 1 / 10 ^ 12 by ring,
      abs_of_pos (show (0 : ℚ) < 1 / 10 ^ 12 by norm_num)]
    norm_num
  have hle : predLE ⟨1, 0, 5⟩ ⟨1 + 1 / 10 ^ 12, 1, 7⟩ := by
    unfold predLE
    exact Or.inl (by norm_num)
  have hsort :
      sortedPreds [⟨1, 0, 5⟩, ⟨1 + 1 / 10 ^ 12, 1, 7⟩] =
        [⟨1, 0, 5⟩, ⟨1 + 1 / 10 ^ 12, 1, 7⟩] := by
    unfold sortedPreds
    simp only [List.insertionSort, List.orderedInsert]
    rw [if_pos hle]
  have htimes :
      timesOf [⟨1, 0, 5⟩, ⟨1 + 1 / 10 ^ 12, 1, 7⟩] = [1, 1 + 1 / 10 ^ 12] := by
    unfold timesOf
    rw [hsort]
    simp only [List.map]
    simp only [dedupTimes, if_neg (show (1 : ℚ) ≠ 1 + 1 / 10 ^ 12 by norm_num)]
  rw [htimes]
  exact ⟨habs, rfl, by norm_num⟩

/-! ## Formatting lemmas -/

theorem digitChar_facts (j : ℕ) (h : j < 10) :
    (Char.ofNat (48 + j)).isDigit = true ∧ Char.ofNat (48 + j) ≠ '.' := by
  interval_cases j <;> exact ⟨by decide, by decide⟩

theorem mem_digitsStr (l : List ℕ) :
    ∀ c ∈ (digitsStr l).data, c.isDigit = true ∧ c ≠ '.' := by
  intro c hc
  have hc' : c ∈ l.map fun k => Char.ofNat (48 + k % 10) := hc
  rcases List.mem_map.mp hc' with ⟨k, _, rfl⟩
  exact digitChar_facts (k % 10) (Nat.mod_lt _ (by norm_num))

theorem digitsStr_length (l : List ℕ) : (digitsStr l).length = l.length := by
  show (l.map _).length = l.length
  exact List.length_map l _

theorem natDigitsFixed_length (d n : ℕ) : (natDigitsFixed d n).length = d := by
  unfold natDigitsFixed
  rw [List.length_map, List.length_range]

theorem fmtFixed_hasFracDigits (d : ℕ) (q : ℚ) : hasFracDigits (fmtFixed d q) d := by
  refine ⟨(if ⌊q * 10 ^ d + 1 / 2⌋ < 0 then "-" else "") ++
      digitsStr (natDigitsMSF (⌊q * 10 ^ d + 1 / 2⌋.natAbs / 10 ^ d)),
    digitsStr (natDigitsFixed d (⌊q * 10 ^ d + 1 / 2⌋.natAbs % 10 ^ d)), rfl, ?_, ?_, ?_⟩
  · rw [digitsStr_length, natDigitsFixed_length]
  · intro c hc
    exact (mem_digitsStr _ c hc).1
  · intro c hc
    rw [String.data_append] at hc
    rcases List.mem_append.mp hc with hc | hc
    · rcases lt_or_le (⌊q * 10 ^ d + 1 / 2⌋) 0 with hn | hn
      · rw [if_pos hn] at hc
        rcases List.mem_singleton.mp hc with rfl
        decide
      · rw [if_neg (not_lt.mpr hn)] at hc
        simp at hc
    · exact (mem_digitsStr _ c hc).2

theorem fmtFixed_eval (d : ℕ) (q : ℚ) (n : ℤ) (h : ⌊q * 10 ^ d + 1 / 2⌋ = n) :
    fmtFixed d q =
      (if n < 0 then "-" else "") ++ digitsStr (natDigitsMSF (n.natAbs / 10 ^ d)) ++ "." ++
        digitsStr (natDigitsFixed d (n.natAbs % 10 ^ d)) := by
  simp only [fmtFixed, h]

theorem fmtFixed_natCast (d v : ℕ) :
    fmtFixed d (v : ℚ) = digitsStr (natDigitsMSF v) ++ "." ++ digitsStr (natDigitsFixed d 0) := by
  have h10 : (0 : ℕ) < 10 ^ d := pow_pos (by norm_num) d
  have hfl : ⌊(v : ℚ) * 10 ^ d + 1 / 2⌋ = ((v * 10 ^ d : ℕ) : ℤ) := by
    rw [Int.floor_eq_iff]
    constructor
    · push_cast
      linarith
    · push_cast
      linarith
  rw [fmtFixed_eval d _ _ hfl]
  rw [if_neg (not_lt.mpr (Int.natCast_nonneg _))]
  rw [Int.natAbs_ofNat, Nat.mul_div_cancel v h10, Nat.mul_mod_left]
  rfl

theorem fmtFixed_four_zero : fmtFixed 4 (0 : ℚ) = "0.0000" := by
  have h : ((0 : ℕ) : ℚ) = 0 := Nat.cast_zero
  rw [← h, fmtFixed_natCast]
  decide

theorem fmtFixed_six_five : fmtFixed 6 (5 : ℚ) = "5.000000" := by
  have h : ((5 : ℕ) : ℚ) = 5 := by norm_num
  rw [← h, fmtFixed_natCast]
  decide

theorem fmtFixed_six_fortytwo : fmtFixed 6 (42 : ℚ) = "42.000000" := by
  have h : ((42 : ℕ) : ℚ) = 42 := by norm_num
  rw [← h, fmtFixed_natCast]
  decide

theorem predsAtTime_singleZero (v : ℚ) :
    predsAtTime [⟨0, 0, v⟩] 0 = [⟨0, 0, v⟩] := by
  unfold predsAtTime sortedPreds
  simp only [List.insertionSort, List.orderedInsert, List.filter]
  rw [decide_eq_true (show |(Pred.mk 0 0 v).time - 0| < 1 / 10 ^ 10 by norm_num)]

/-- Evaluation of the full CSV pipeline on a single record at time 0 on
channel 0: one header line and one data row. -/
theorem csvContent_singleZero (v : ℚ) :
    csvContent [⟨0, 0, v⟩] (keysOf [⟨0, 0, v⟩]) =
      "Time,QA,QB,QT" ++ "\n" ++ (fmtFixed 4 0 ++ ("," ++ fmtFixed 6 v) ++ "\n") := by
  have hpat : predsAtTime [⟨0, 0, v⟩] 0 = [⟨0, 0, v⟩] := predsAtTime_singleZero v
  have hcell : cellFor [⟨0, 0, v⟩] 0 = "," ++ fmtFixed 6 v := rfl
  have htimes : timesOf [⟨0, 0, v⟩] = [0] := rfl
  have hkeys : numOuteqs (keysOf [⟨0, 0, v⟩]) = 1 := rfl
  unfold csvContent headerRow
  rw [htimes, hkeys]
  simp only [List.map, String.join, List.foldl, dataRow]
  rw [hpat, hcell]
  rfl

/-- **C1.** The derivative vector computed by the ODE rate-law closure
equals the closed-form expressions of spec §4.1: for every state vector,
parameter vector and infusion rate, `dxClosure` returns exactly
`(r + F_BA - F_AB, F_AB - F_BA - F_BO, r - F_BO)` with the fluxes defined
from the concentrations `QA/SA`, `QB/SB` as the spec states. -/
theorem claim_C1_rate_law_matches_spec (x : Fin 3 → ℚ) (p : Fin 8 → ℚ) (r : ℚ) :
    dxClosure x p r =
      specRateLaw (x 0) (x 1) (p 0) (p 1) (p 2) (p 3) (p 4) (p 5) (p 6) (p 7) r :=
  rfl

/-- **C2.** The initial-condition closure sets the state to exactly
`QA = 6.0`, `QB = 9.0`, `QT = 15.0` for every parameter vector, time and
covariate input, and its output does not depend on any of its arguments. -/
theorem claim_C2_initial_condition_constant :
    (∀ (Cov : Type) (p : Fin 8 → ℚ) (t : ℚ) (cov : Cov),
        initClosure p t cov = ![6, 9, 15]) ∧
      ∀ (Cov Cov' : Type) (p p' : Fin 8 → ℚ) (t t' : ℚ) (cov : Cov) (cov' : Cov'),
        initClosure p t cov = initClosure p' t' cov' :=
  ⟨fun _ _ _ _ => rfl, fun _ _ _ _ _ _ _ _ => rfl⟩

/-- **C3.** The observation closure is the identity on the state: for every
state vector, parameter vector, time and covariates, output channel `i`
equals state component `i` for each `i : Fin 3`. -/
theorem claim_C3_observation_identity (Cov : Type) (x : Fin 3 → ℚ) (p : Fin 8 → ℚ)
    (t : ℚ) (cov : Cov) (i : Fin 3) : obsClosure x p t cov i = x i := by
  fin_cases i <;> rfl

/-- **C5 (amended).** The CSV header is the fixed literal `Time,QA,QB,QT`
with exactly 4 comma-separated columns, for every prediction list and key
set — it does not vary with the observed channel indices.  It has `N + 1`
columns only in the case the full program actually produces, namely
channels `{0, 1, 2}` with `N = numOuteqs [0, 1, 2] = 3`. -/
theorem claim_C5_header_is_fixed_literal (preds : List Pred) (ks : List ℕ) :
    columnsOf headerRow = 4 ∧
      csvContent preds ks =
        headerRow ++ "\n" ++
          String.join ((timesOf preds).map (dataRow preds (numOuteqs ks))) ∧
      numOuteqs [0, 1, 2] + 1 = 4 :=
  ⟨by decide, rfl, by decide⟩

/-- **C5 (counterexample).** A prediction list observing only channel 0
has `N = max index + 1 = 1`, so the claim requires `N + 1 = 2` header
columns; the emitted header is the literal `Time,QA,QB,QT` with 4
columns. -/
theorem claim_C5_counterexample :
    numOuteqs (keysOf [⟨0, 0, 5⟩]) = 1 ∧
      csvContent [⟨0, 0, 5⟩] (keysOf [⟨0, 0, 5⟩]) =
        "Time,QA,QB,QT\n0.0000,5.000000\n" ∧
      columnsOf "Time,QA,QB,QT" = 4 ∧ ¬(4 = 1 + 1) := by
  refine ⟨rfl, ?_, by decide, by decide⟩
  rw [csvContent_singleZero, fmtFixed_four_zero, fmtFixed_six_five]
  rfl

/-- **C6.** Row formatting: in every emitted data row the time is rendered
with exactly 4 fractional digits; a `(time, channel)` pair that has a
record renders as `","` followed by the value with exactly 6 fractional
digits; a pair with no record renders as the bare separator `","` — an
empty field (hence two consecutive commas, or a trailing comma, in the
row), never a zero.  The second conjunct exhibits the row as the time
field followed directly by the concatenated cells. -/
theorem claim_C6_row_formatting (preds : List Pred) (n : ℕ) (t : ℚ) (o : ℕ) :
    hasFracDigits (fmtFixed 4 t) 4 ∧
      dataRow preds n t =
        fmtFixed 4 t ++
          String.join ((List.range n).map (cellFor (predsAtTime preds t))) ++ "\n" ∧
      ((predsAtTime preds t).find? (fun p => p.outeq == o) = none →
        cellFor (predsAtTime preds t) o = ",") ∧
      ∀ p, (predsAtTime preds t).find? (fun p' => p'.outeq == o) = some p →
        cellFor (predsAtTime preds t) o = "," ++ fmtFixed 6 p.prediction ∧
          hasFracDigits (fmtFixed 6 p.prediction) 6 := by
  refine ⟨fmtFixed_hasFracDigits 4 t, rfl, ?_, ?_⟩
  · intro h
    unfold cellFor
    rw [h]
  · intro p h
    refine ⟨?_, fmtFixed_hasFracDigits 6 p.prediction⟩
    unfold cellFor
    rw [h]

theorem claim_C6_witness :
    hasFracDigits (fmtFixed 4 (0 : ℚ)) 4 ∧ cellFor (predsAtTime [] 0) 0 = "," ∧
      cellFor (predsAtTime [⟨0, 0, 5⟩] 0) 0 = "," ++ fmtFixed 6 (5 : ℚ) := by
  refine ⟨(claim_C6_row_formatting [] 0 0 0).1,
    (claim_C6_row_formatting [] 0 0 0).2.2.1 rfl, ?_⟩
  exact ((claim_C6_row_formatting [⟨0, 0, 5⟩] 1 0 0).2.2.2 ⟨0, 0, 5⟩
    (by rw [predsAtTime_singleZero]; rfl)).1

/-- **C7 (amended).** The program performs no validation of `SA` or `SB`:
`main` passes the parameter vector unconditionally to
`estimate_predictions` and serializes whatever the integrator returns.
The hard-coded parameter vector has `SA = 20 > 0` and `SB = 25 > 0`, so
the division-by-zero hazard never arises in the shipped configuration. -/
theorem claim_C7_no_validation :
    (∀ (integrate : List ℚ → List Pred) (params : List ℚ),
        mainPipeline integrate params =
          csvContent (integrate params) (keysOf (integrate params))) ∧
      mainParams.getD 0 0 = 20 ∧ (0 : ℚ) < 20 ∧
      mainParams.getD 1 0 = 25 ∧ (0 : ℚ) < 25 :=
  ⟨fun _ _ => rfl, rfl, by norm_num, rfl, by norm_num⟩

/-- **C7 (counterexample).** With `SA = -1 ≤ 0` in position 0 of the
parameter vector, the pipeline still hands the parameters to the
integrator and serializes the integrator's output into a CSV: no
configuration error is detected or reported before integration, and the
record returned by the integrator duly appears in the output. -/
theorem claim_C7_counterexample :
    ((-1 : ℚ) ≤ 0) ∧
      mainPipeline (fun _ => [⟨0, 0, 42⟩])
          [-1, 25, 18, 13, 8, 32 / 100, 36 / 100, 31 / 100] =
        "Time,QA,QB,QT\n0.0000,42.000000\n" := by
  refine ⟨by norm_num, ?_⟩
  show csvContent [⟨0, 0, 42⟩] (keysOf [⟨0, 0, 42⟩]) = _
  rw [csvContent_singleZero, fmtFixed_four_zero, fmtFixed_six_fortytwo]
  rfl

/-- **C9.** Reshaping and serialization are pure functions of the
prediction list, with no dependence on hash-map iteration order: the only
place the `groups` map is consulted is `groups.keys().max()`, and any two
enumeration orders of the key set produce byte-identical CSV text.  Hence
two runs on the same prediction list agree byte-for-byte. -/
theorem claim_C9_order_independent (preds : List Pred) (ks₁ ks₂ : List ℕ)
    (h : ks₁.Perm ks₂) : csvContent preds ks₁ = csvContent preds ks₂ := by
  unfold csvContent
  rw [numOuteqs_perm h]

theorem claim_C9_witness :
    csvContent [] [0, 1] = csvContent [] [1, 0] :=
  claim_C9_order_independent [] [0, 1] [1, 0] (List.Perm.swap 1 0 [])

/-- **C8.** `QT` integrates its own balance (`dQT/dt = r - F_BO`), yet the
rate-law closure satisfies `dx[0] + dx[1] = dx[2]` exactly for every
state, parameter vector and (time-varying) infusion rate; the initial
condition satisfies `QA + QB = 6 + 9 = 15 = QT`; and consequently every
differentiable trajectory of the ODE keeps `QT = QA + QB` at all times. -/
theorem claim_C8_sum_invariant :
    (∀ (x : Fin 3 → ℝ) (p : Fin 8 → ℝ) (r : ℝ),
        dxClosure x p r 0 + dxClosure x p r 1 = dxClosure x p r 2) ∧
      (∀ (p : Fin 8 → ℝ) (t : ℝ) (cov : Unit),
        initClosure p t cov 0 + initClosure p t cov 1 = initClosure p t cov 2) ∧
      ∀ (q : ℝ → Fin 3 → ℝ) (p : Fin 8 → ℝ) (r : ℝ → ℝ),
        (∀ t i, HasDerivAt (fun s => q s i) (dxClosure (q t) p (r t) i) t) →
        q 0 = initClosure p 0 () →
        ∀ t, q t 2 = q t 0 + q t 1 := by
  have hsum : ∀ (x : Fin 3 → ℝ) (p : Fin 8 → ℝ) (r : ℝ),
      dxClosure x p r 0 + dxClosure x p r 1 = dxClosure x p r 2 := by
    intro x p r
    simp only [dxClosure, Matrix.cons_val_zero, Matrix.cons_val_one, Matrix.head_cons,
      Matrix.cons_val_two, Matrix.tail_cons]
    ring
  refine ⟨hsum, ?_, ?_⟩
  · intro p t cov
    simp only [initClosure, Matrix.cons_val_zero, Matrix.cons_val_one, Matrix.head_cons,
      Matrix.cons_val_two, Matrix.tail_cons]
    norm_num
  · intro q p r hode h0 t
    have hg : ∀ s, HasDerivAt (fun u => q u 0 + q u 1 - q u 2) 0 s := by
      intro s
      have h1 := ((hode s 0).add (hode s 1)).sub (hode s 2)
      rwa [show dxClosure (q s) p (r s) 0 + dxClosure (q s) p (r s) 1 -
          dxClosure (q s) p (r s) 2 = 0 from by rw [hsum]; exact sub_self _] at h1
    have hconst := is_const_of_deriv_eq_zero
      (fun s => (hg s).differentiableAt) (fun s => (hg s).deriv)
    have ht : q t 0 + q t 1 - q t 2 = q 0 0 + q 0 1 - q 0 2 := hconst t 0
    have h00 : q 0 0 + q 0 1 - q 0 2 = 0 := by
      rw [h0]
      simp only [initClosure, Matrix.cons_val_zero, Matrix.cons_val_one, Matrix.head_cons,
        Matrix.cons_val_two, Matrix.tail_cons]
      norm_num
    linarith

theorem claim_C8_witness :
    (initClosure (K := ℝ) (fun _ => 0) 0 ()) 2 =
      (initClosure (K := ℝ) (fun _ => 0) 0 ()) 0 +
        (initClosure (K := ℝ) (fun _ => 0) 0 ()) 1 := by
  have hzero : ∀ i : Fin 3,
      dxClosure (K := ℝ) (initClosure (fun _ => 0) 0 ()) (fun _ => 0) 0 i = 0 := by
    intro i
    fin_cases i <;> simp [dxClosure, initClosure]
  exact claim_C8_sum_invariant.2.2 (fun _ => initClosure (fun _ => 0) 0 ())
    (fun _ => 0) (fun _ => 0)
    (fun t i => by
      have h := hasDerivAt_const (𝕜 := ℝ) t ((initClosure (K := ℝ) (fun _ => 0) 0 ()) i)
      simpa [hzero i] using h)
    rfl 1

/-- **C10.** On an empty prediction list the reshaping step does not fail:
the distinct-time list is empty, the channel count is 0, and the CSV is
exactly the header line `Time,QA,QB,QT` followed by a newline, with no
data rows. -/
theorem claim_C10_empty_input :
    timesOf [] = [] ∧ numOuteqs (keysOf []) = 0 ∧
      csvContent [] (keysOf []) = "Time,QA,QB,QT\n" :=
  ⟨rfl, rfl, rfl⟩

end JamTwoPool
